import Mathlib

/-!
Verification development for the node-fs-tree-db repository.

The repository has two source files:
  - src/library/cache.js   : a hierarchical in-memory cache (class Cache)
  - src/library/treedb.js  : the tree synchronizer (class TreeDB)

This file shallowly embeds both components and proves properties about them.

Modelling conventions, chosen to follow the JavaScript source:
  - a JS value stored in the cache tree is one of a string (file content),
    a plain object (a branch, modelled as an association list preserving
    insertion order, as JS objects preserve string-key insertion order),
    or the JS value null (used by readBranch as a placeholder);
  - JS property lookup and the `in` operator are modelled as own-property
    lookup on the association list (prototype-chain lookups are out of
    scope of the model);
  - the files run in strict mode (they start with a use-strict directive
    and class bodies are always strict), so creating a property on a
    string primitive throws a TypeError, and using the `in` operator or
    deleting an own non-configurable property (a character index or the
    length property) on a string primitive also throws;
  - promises are modelled with Except: a thrown exception inside a
    Promise executor rejects the promise, which is Except.error here; for
    remove, whose executor never calls resolve after a successful delete
    (its only resolve call is the missing-interior early return), the
    Except.ok result is the state of the tree after the call, and the
    settlement of the promise is tracked separately by RemoveOutcome;
  - the cache separator is modelled as a single character (the default
    configuration uses the one-character string "/"; nothing in the
    claims depends on longer separator strings);
  - setTimeout scheduling is modelled by returning the list of timers a
    call schedules, as pairs of (delay in milliseconds, key that the
    timer will pass to remove when it fires).
-/

namespace NodeFsTreeDb

/-- A node of the in-memory cache tree: a JS string (a leaf holding file
content), a plain JS object (a branch mapping names to child nodes), or
the JS value null. -/
inductive TreeNode where
  | leaf (content : String)
  | branch (children : List (String × TreeNode))
  | null

/-- The children map of a branch, in JS property insertion order. -/
abbrev Children := List (String × TreeNode)

/-- Own-property lookup on a JS object, modelled on the association list:
the first entry with the given key. -/
def lookupA : Children → String → Option TreeNode
  | [], _ => none
  | (k', v) :: rest, k => if k' = k then some v else lookupA rest k

/-- JS property assignment on an object: an existing key is updated in
place (keeping its position), a new key is appended at the end. -/
def insertA : Children → String → TreeNode → Children
  | [], k, v => [(k, v)]
  | (k', v') :: rest, k, v =>
      if k' = k then (k, v) :: rest else (k', v') :: insertA rest k v

/-- The JS delete operator on an object: removes the first entry with the
given key (a JS object has at most one). -/
def eraseA : Children → String → Children
  | [], _ => []
  | (k', v') :: rest, k => if k' = k then rest else (k', v') :: eraseA rest k

/-- Whether a string primitive has the given own non-configurable
property: the length property or a canonical character index below the
string length. Deleting such a property in strict mode throws. -/
def jsStringOwnProp (s : String) (k : String) : Bool :=
  k = "length" ||
    (match k.toNat? with
     | some i => decide (toString i = k) && decide (i < s.length)
     | none => false)

/-- The split of a character list on a separator character, accumulating
the current segment in reverse; translated from key.split(separator) in
the source for a one-character separator. -/
def splitC (sep : Char) : List Char → List Char → List String
  | [], cur => [String.mk cur.reverse]
  | c :: rest, cur =>
      if c = sep then String.mk cur.reverse :: splitC sep rest []
      else splitC sep rest (c :: cur)

/-- key.split(separator) for a one-character separator, as used by get,
set and remove in cache.js. -/
def jsSplit (key : String) (sep : Char) : List String :=
  splitC sep key.data []

/-- The TTL argument or configuration value: the JS value undefined (the
argument was omitted), the JS value false, or a number of milliseconds. -/
inductive Ttl where
  | undef
  | fls
  | num (n : Nat)
deriving Repr, DecidableEq

/-- JS truthiness of a TTL value: undefined, false and 0 are falsy. -/
def Ttl.truthy : Ttl → Bool
  | .undef => false
  | .fls => false
  | .num n => n != 0

/-- Cache configuration merged in the Cache constructor: a default TTL
and a separator. -/
structure CacheConfig where
  ttl : Ttl
  separator : Char
deriving Repr, DecidableEq

/-- The defaults merged in the Cache constructor: ttl 108000 and
separator the slash character. -/
def defaultCfg : CacheConfig := { ttl := .num 108000, separator := '/' }

/-- The configuration TreeDB passes to its cache: ttl false (the TreeDB
constructor default), separator defaulting to slash. -/
def treeDbCfg : CacheConfig := { ttl := .fls, separator := '/' }

/-- Object.assign of an empty object with the cache storage, as performed
at the top of Cache.get: for an object it is a fresh object with the same
own enumerable properties (functionally the same branch); for a string it
spreads the characters of the string into index properties whose values
are one-character strings; for null it is the empty object. The result is
always a plain object. -/
def assignCopy : TreeNode → TreeNode
  | .branch m => .branch m
  | .leaf s =>
      .branch ((List.range s.length).map
        (fun i => (toString i, .leaf (String.mk [s.data.getD i ' ']))))
  | .null => .branch []

/-- The loop of Cache.get: before reading each segment the current value
must be a truthy object (otherwise the promise is rejected), and after
the loop an undefined result is also rejected. -/
def walkOpt : Option TreeNode → List String → Except Unit TreeNode
  | o, [] => match o with
      | some t => .ok t
      | none => .error ()
  | o, s :: rest => match o with
      | some (.branch m) => walkOpt (lookupA m s) rest
      | _ => .error ()

/-- Cache.get: splits the key, takes the shallow Object.assign snapshot of
the root, then walks segment by segment; Except.error is the rejection
used as the miss signal. -/
def getM (cfg : CacheConfig) (storage : TreeNode) (key : String) : Except Unit TreeNode :=
  walkOpt (some (assignCopy storage)) (jsSplit key cfg.separator)

/-- The walk-and-assign loop of Cache.set on the split key segments.
An existing segment is descended into even when it is not an object;
descending into or assigning onto a string or null throws a TypeError in
strict mode, which rejects the promise before any mutation happened, so
the error case returns no tree. A missing segment is created as a fresh
empty object. -/
def setGo : TreeNode → List String → TreeNode → Except Unit TreeNode
  | t, [last], v =>
      match t with
      | .branch m => .ok (.branch (insertA m last v))
      | _ => .error ()
  | t, s :: rest, v =>
      match t with
      | .branch m =>
          match lookupA m s with
          | some c =>
              match setGo c rest v with
              | .ok c' => .ok (.branch (insertA m s c'))
              | .error e => .error e
          | none =>
              match setGo (.branch []) rest v with
              | .ok c' => .ok (.branch (insertA m s c'))
              | .error e => .error e
      | _ => .error ()
  | _, [], _ => .error ()

/-- Cache.set: coalesces the TTL argument with the configured default
using JS or (a falsy argument is replaced by config.ttl), replaces the
whole storage when the key is empty, otherwise runs the walk-and-assign
loop; afterwards, only when the effective TTL is falsy (the condition in
the source is the negation of the TTL), schedules one setTimeout whose
callback is remove(key) and whose delay is the falsy TTL coerced to 0.
Returns the promise outcome together with the scheduled timers. -/
def setM (cfg : CacheConfig) (storage : TreeNode) (key : String) (value : TreeNode)
    (ttl : Ttl) : Except Unit TreeNode × List (Nat × String) :=
  let eff := if ttl.truthy then ttl else cfg.ttl
  let res := if key.length = 0 then .ok value
             else setGo storage (jsSplit key cfg.separator) value
  match res with
  | .ok t' => (.ok t', if eff.truthy then [] else [(0, key)])
  | .error e => (.error e, [])

/-- The state effect of the walk-and-delete loop of Cache.remove on the
split key segments. A missing interior segment stops the walk without
touching the tree; a string or null met where an object is needed throws
(rejecting the promise) before any mutation; the final delete on a string
throws exactly when the deleted property is an own non-configurable
string property, and mutates nothing either way. Except.ok carries the
tree after the call and Except.error means the promise rejected with the
tree unchanged; whether the promise ever settles is a separate question,
answered by removeOutcomeGo, because the source never calls resolve on
the successful delete path. -/
def removeGo : TreeNode → List String → Except Unit TreeNode
  | t, [] => .ok t
  | t, [last] =>
      match t with
      | .branch m => .ok (.branch (eraseA m last))
      | .leaf s => if jsStringOwnProp s last then .error () else .ok (.leaf s)
      | .null => .error ()
  | t, s :: rest =>
      match t with
      | .branch m =>
          match lookupA m s with
          | some c =>
              match removeGo c rest with
              | .ok c' => .ok (.branch (insertA m s c'))
              | .error e => .error e
          | none => .ok (.branch m)
      | _ => .error ()

/-- Cache.remove: splits the key and runs the walk-and-delete loop.
Except.ok is the state outcome, not a settlement: see removeOutcome for
which calls actually resolve, reject or stay pending. -/
def removeM (cfg : CacheConfig) (storage : TreeNode) (key : String) : Except Unit TreeNode :=
  removeGo storage (jsSplit key cfg.separator)

/-- The cache state after a remove call: the new tree on success, the
unchanged tree when the promise rejected. -/
def removeState (cfg : CacheConfig) (storage : TreeNode) (key : String) : TreeNode :=
  match removeM cfg storage key with
  | .ok t' => t'
  | .error _ => storage

/-- How the promise returned by Cache.remove settles: resolved (the
executor calls resolve only on the missing-interior early return),
rejected (a TypeError was thrown), or pending forever (the successful
delete path falls off the end of the executor without calling resolve,
cache.js line 154). -/
inductive RemoveOutcome where
  | resolved
  | rejected
  | pending
deriving Repr, DecidableEq

/-- The settlement of Cache.remove along the split key segments, case by
case the same walk as removeGo. The empty segment list never arises from
a split key and is given the delete-path outcome. -/
def removeOutcomeGo : TreeNode → List String → RemoveOutcome
  | _, [] => .pending
  | t, [last] =>
      match t with
      | .branch _ => .pending
      | .leaf s => if jsStringOwnProp s last then .rejected else .pending
      | .null => .rejected
  | t, s :: rest =>
      match t with
      | .branch m =>
          match lookupA m s with
          | some c => removeOutcomeGo c rest
          | none => .resolved
      | _ => .rejected

/-- The settlement of a Cache.remove call on a key. -/
def removeOutcome (cfg : CacheConfig) (storage : TreeNode) (key : String) :
    RemoveOutcome :=
  removeOutcomeGo storage (jsSplit key cfg.separator)

/-! Embedding of src/library/treedb.js. File system paths are modelled as
lists of path segments; path.join appends segment lists and path.basename
is the last segment. The file system itself is modelled as a static tree
of files and directories. -/

/-- A node of the on-disk tree: a regular file with its content, or a
directory with its named entries in readdir order. -/
inductive FSNode where
  | file (content : String)
  | dir (entries : List (String × FSNode))

/-- Resolves a relative segment path inside a file-system node. -/
def fsResolve : FSNode → List String → Option FSNode
  | t, [] => some t
  | .dir entries, s :: rest =>
      match fsFind entries s with
      | some c => fsResolve c rest
      | none => none
  | .file _, _ :: _ => none
where
  /-- Finds a directory entry by name. -/
  fsFind : List (String × FSNode) → String → Option FSNode
    | [], _ => none
    | (k, v) :: rest, s => if k = s then some v else fsFind rest s

/-- The synchronous preset loop in the directory case of readBranch: every
child name is first written as null into the freshly created object (the
asynchronous recursions overwrite these placeholders later). -/
def presetNulls : List (String × FSNode) → Children → Children
  | [], acc => acc
  | (n, _) :: rest, acc => presetNulls rest (insertA acc n .null)

mutual

/-- TreeDB.readBranch on an existing node, translated from the source: a
file stores its content as a leaf keyed by the base name directly into the
caller-supplied accumulator; a directory stores a fresh object keyed by
the base name, presets every child name to null, and recurses into every
child with that object as the accumulator. The value returned is the final
accumulator once every child recursion has completed. -/
def readBranchM : FSNode → String → Children → Children
  | .file content, name, br => insertA br name (.leaf content)
  | .dir entries, name, br =>
      insertA br name (.branch (readBranchKids entries (presetNulls entries [])))

/-- The fan-out over the children of a directory in readBranch: each child
recursion mutates the shared accumulator; since distinct children write
distinct keys, the final accumulator equals the sequential left fold. -/
def readBranchKids : List (String × FSNode) → Children → Children
  | [], acc => acc
  | (n, c) :: rest, acc => readBranchKids rest (readBranchM c n acc)

end

mutual

/-- The pure materialization of an on-disk node into a cache tree node: a
file becomes a leaf, a directory becomes a branch of its materialized
children in readdir order. -/
def mat : FSNode → TreeNode
  | .file content => .leaf content
  | .dir entries => .branch (matKids entries)

/-- Materializes a directory entry list. -/
def matKids : List (String × FSNode) → Children
  | [] => []
  | (n, c) :: rest => (n, mat c) :: matKids rest

end

/-- Whether a directory entry list has a given name. -/
def hasKeyF : List (String × FSNode) → String → Bool
  | [], _ => false
  | (k, _) :: rest, s => k = s || hasKeyF rest s

/-- Whether the names of a directory entry list are pairwise distinct. -/
def nodupKeysF : List (String × FSNode) → Bool
  | [] => true
  | (k, _) :: rest => !hasKeyF rest k && nodupKeysF rest

mutual

/-- A well-formed file-system tree: every directory has pairwise distinct
entry names, as a real directory does. -/
def wfF : FSNode → Bool
  | .file _ => true
  | .dir entries => nodupKeysF entries && wfFL entries

/-- Well-formedness of every node in a directory entry list. -/
def wfFL : List (String × FSNode) → Bool
  | [] => true
  | (_, c) :: rest => wfF c && wfFL rest

end

/-- Strips one leading slash from a node path, as getPath and getBranch
do before consulting the cache. -/
def trimSlash (nodePath : String) : String :=
  match nodePath.data with
  | '/' :: rest => String.mk rest
  | _ => nodePath

/-- The segments a node path contributes to path.join: splitting on the
slash and dropping empty segments, since path.join normalizes away
repeated separators. -/
def pathSegs (nodePath : String) : List String :=
  (jsSplit nodePath '/').filter (fun s => s ≠ "")

/-- The cache state after a fire-and-forget cache set whose promise is
discarded: the new tree on success, the unchanged tree when the set
rejected (the rejection is unhandled and the cache was not mutated). -/
def setStateOr (cache : TreeNode) (r : Except Unit TreeNode) : TreeNode :=
  match r with
  | .ok c' => c'
  | .error _ => cache

/-- TreeDB.getBranch: trims a leading slash, consults the cache, and on a
miss materializes the subtree at path.join(root, nodePath) into a fresh
accumulator, stores the raw accumulator object in the cache under the
node path (with the TTL argument omitted), and returns it. Returns the
returned value, the cache state afterwards, and the timers the embedded
cache set scheduled. On a missing disk path readBranch resolves without
touching the accumulator, so the empty object is cached. -/
def getBranchM (cfg : CacheConfig) (rootSegs : List String) (fsRoot : FSNode)
    (cache : TreeNode) (nodePath : String) :
    TreeNode × TreeNode × List (Nat × String) :=
  let np := trimSlash nodePath
  match getM cfg cache np with
  | .ok v => (v, cache, [])
  | .error _ =>
      let fsegs := pathSegs np
      let baseName := (rootSegs ++ fsegs).getLastD ""
      let tree : Children :=
        match fsResolve fsRoot fsegs with
        | some node => readBranchM node baseName []
        | none => []
      let r := setM cfg cache np (.branch tree) .undef
      (.branch tree, setStateOr cache r.1, r.2)

/-- The bootstrap of TreeDB.loadDatabase once the storage root exists on
disk: reads the whole root recursively into a fresh accumulator (the base
name of config.root is always the literal storage, since config.root is
path.join(rootPath, storage)), then seeds the cache at the empty key with
the storage property of the accumulator, TTL false. The returned node is
the cache root after the seed. -/
def loadDatabaseM (rootNode : FSNode) : TreeNode :=
  match lookupA (readBranchM rootNode "storage" []) "storage" with
  | some t => t
  | none => .null

/-! Embedding of TreeDB.readPath. The file-system primitives it uses are
modelled as an abstract collaborator so that stat failures other than a
missing file can be expressed. -/

/-- An error from a file-system primitive, carrying its code string. -/
structure IOErr where
  code : String
deriving Repr, DecidableEq

/-- What lstat reports about an existing path. -/
inductive StatKind where
  | file
  | directory
  | other
deriving Repr, DecidableEq

/-- The file-system collaborator used by readPath: lstat, readFile and
readdir, each either succeeding or failing with an error. -/
structure FSOps where
  lstat : List String → Except IOErr StatKind
  readFile : List String → Except IOErr String
  readdir : List String → Except IOErr (List String)

/-- The outcome of a promise: resolved with a value, rejected with an
error, or never settled. -/
inductive POutcome (α : Type) where
  | resolved (v : α)
  | rejected (e : IOErr)
  | pending
deriving Repr, DecidableEq

/-- A value readPath can resolve with: the single-leaf object produced by
readLeaf for a file, or the shallow child-name listing for a directory. -/
inductive PathValue where
  | leafObj (entries : List (String × String))
  | names (children : List String)
deriving Repr, DecidableEq

/-- TreeDB.readPath, translated from the source: resolves the node path
against the root and stats it. A file resolves to the readLeaf object (a
readFile failure rejects directly, bypassing the ENOENT handler, because
the promise only adopts it); a directory resolves to the readdir listing
(a readdir failure flows into the ENOENT handler); an lstat failure with
code ENOENT resolves to undefined, any other lstat failure rejects with
that error; a path that is neither file nor directory never settles, as
the source then calls neither resolve nor reject. -/
def readPathM (ops : FSOps) (rootSegs : List String) (nodeSegs : List String) :
    POutcome (Option PathValue) :=
  let p := rootSegs ++ nodeSegs
  match ops.lstat p with
  | .error e => if e.code = "ENOENT" then .resolved none else .rejected e
  | .ok .file =>
      match ops.readFile p with
      | .ok c => .resolved (some (.leafObj [(p.getLastD "", c)]))
      | .error e => .rejected e
  | .ok .directory =>
      match ops.readdir p with
      | .ok ns => .resolved (some (.names ns))
      | .error e => if e.code = "ENOENT" then .resolved none else .rejected e
  | .ok .other => .pending

/-! Auxiliary notions used to state the properties. -/

/-- Pure traversal of a cache tree along a segment list: descends through
branches and reports none as soon as a segment is absent or the current
node is not a branch. -/
def resolveP : TreeNode → List String → Option TreeNode
  | t, [] => some t
  | .branch m, s :: rest =>
      match lookupA m s with
      | some c => resolveP c rest
      | none => none
  | _, _ :: _ => none

/-- Whether the first segment list is an initial segment of the second. -/
def liesAlong : List String → List String → Bool
  | [], _ => true
  | _ :: _, [] => false
  | a :: as, b :: bs => a = b && liesAlong as bs

/-- The traversed part of a path is clean when every existing node met
while walking the segments (the root included) is a branch; a missing
segment makes the rest of the path vacuously clean, since set creates
fresh empty objects there and remove stops. -/
def cleanPath : TreeNode → List String → Bool
  | _, [] => true
  | .branch m, s :: rest =>
      (match lookupA m s with
       | some c => cleanPath c rest
       | none => true)
  | _, _ :: _ => false

/-- Whether walking the interior segments of the path (all but the last)
runs into a branch that is missing the next segment, which is the
condition under which Cache.remove resolves without touching anything. -/
def missingInterior : TreeNode → List String → Bool
  | _, [] => false
  | _, [_] => false
  | .branch m, s :: rest =>
      (match lookupA m s with
       | some c => missingInterior c rest
       | none => true)
  | _, _ :: _ => false

/-- Whether a children list has a given key. -/
def hasKeyC : Children → String → Bool
  | [], _ => false
  | (k', _) :: rest, k => k' = k || hasKeyC rest k

/-- Whether the keys of a children list are pairwise distinct. -/
def nodupKeysC : Children → Bool
  | [] => true
  | (k, _) :: rest => !hasKeyC rest k && nodupKeysC rest

mutual

/-- A well-formed cache tree: every branch has pairwise distinct keys, as
every JS object does. -/
def wfT : TreeNode → Bool
  | .leaf _ => true
  | .null => true
  | .branch m => nodupKeysC m && wfTL m

/-- Well-formedness of every node of a children list. -/
def wfTL : Children → Bool
  | [] => true
  | (_, c) :: rest => wfT c && wfTL rest

end

/-- The null placeholders a directory preset writes, as a plain list. -/
def nullList : List (String × FSNode) → Children
  | [] => []
  | (n, _) :: rest => (n, .null) :: nullList rest

/-- The effect of running the child recursions sequentially, with the
placeholder for each child replaced by its materialization. -/
def insKids : List (String × FSNode) → Children → Children
  | [], acc => acc
  | (n, c) :: rest, acc => insKids rest (insertA acc n (mat c))

/-- The fixed collaborator whose lstat always fails with ENOENT. -/
def enoentOps : FSOps :=
  { lstat := fun _ => .error ⟨"ENOENT"⟩
    readFile := fun _ => .error ⟨"ENOENT"⟩
    readdir := fun _ => .error ⟨"ENOENT"⟩ }

/-- The fixed collaborator whose lstat always fails with EACCES. -/
def eaccesOps : FSOps :=
  { lstat := fun _ => .error ⟨"EACCES"⟩
    readFile := fun _ => .error ⟨"EACCES"⟩
    readdir := fun _ => .error ⟨"EACCES"⟩ }

/-! Association-list lemmas. -/

theorem lookupA_insertA_self (m : Children) (k : String) (v : TreeNode) :
    lookupA (insertA m k v) k = some v := by
  induction m with
  | nil => simp [insertA, lookupA]
  | cons hd tl ih =>
      obtain ⟨k', v'⟩ := hd
      by_cases h : k' = k <;> simp [insertA, lookupA, h, ih]

theorem lookupA_insertA_ne (m : Children) (k k' : String) (v : TreeNode)
    (h : k' ≠ k) : lookupA (insertA m k v) k' = lookupA m k' := by
  induction m with
  | nil => simp [insertA, lookupA, Ne.symm h]
  | cons hd tl ih =>
      obtain ⟨k₀, v₀⟩ := hd
      by_cases h₀ : k₀ = k
      · subst h₀
        simp [insertA, lookupA, Ne.symm h]
      · by_cases h₁ : k₀ = k' <;> simp [insertA, lookupA, h₀, h₁, ih, h]

theorem insertA_insertA (m : Children) (k : String) (v w : TreeNode) :
    insertA (insertA m k v) k w = insertA m k w := by
  induction m with
  | nil => simp [insertA]
  | cons hd tl ih =>
      obtain ⟨k₀, v₀⟩ := hd
      by_cases h : k₀ = k <;> simp [insertA, h, ih]

theorem hasKeyC_lookupA (m : Children) (k : String) :
    hasKeyC m k = (lookupA m k).isSome := by
  induction m with
  | nil => simp [hasKeyC, lookupA]
  | cons hd tl ih =>
      obtain ⟨k₀, v₀⟩ := hd
      by_cases h : k₀ = k <;> simp [hasKeyC, lookupA, h, ih]

theorem eraseA_not_has (m : Children) (k : String) (h : hasKeyC m k = false) :
    eraseA m k = m := by
  induction m with
  | nil => simp [eraseA]
  | cons hd tl ih =>
      obtain ⟨k₀, v₀⟩ := hd
      simp only [hasKeyC, Bool.or_eq_false_iff, decide_eq_false_iff_not] at h
      simp [eraseA, h.1, ih h.2]

theorem hasKeyC_eraseA (m : Children) (k : String) (h : nodupKeysC m = true) :
    hasKeyC (eraseA m k) k = false := by
  induction m with
  | nil => simp [eraseA, hasKeyC]
  | cons hd tl ih =>
      obtain ⟨k₀, v₀⟩ := hd
      simp only [nodupKeysC, Bool.and_eq_true, Bool.not_eq_true'] at h
      by_cases h₀ : k₀ = k
      · subst h₀
        simpa [eraseA] using h.1
      · simp [eraseA, h₀, hasKeyC, ih h.2]

theorem eraseA_eraseA (m : Children) (k : String) (h : nodupKeysC m = true) :
    eraseA (eraseA m k) k = eraseA m k :=
  eraseA_not_has _ _ (hasKeyC_eraseA m k h)

theorem wfT_branch_nodup {m : Children} (h : wfT (.branch m) = true) :
    nodupKeysC m = true := by
  simp only [wfT, Bool.and_eq_true] at h
  exact h.1

theorem wfTL_lookupA {m : Children} {s : String} {c : TreeNode}
    (h : wfTL m = true) (hc : lookupA m s = some c) : wfT c = true := by
  induction m with
  | nil => simp [lookupA] at hc
  | cons hd tl ih =>
      obtain ⟨k₀, v₀⟩ := hd
      simp only [wfTL, Bool.and_eq_true] at h
      by_cases h₀ : k₀ = s
      · subst h₀
        simp [lookupA] at hc
        exact hc ▸ h.1
      · simp only [lookupA, if_neg h₀] at hc
        exact ih h.2 hc

theorem wfT_child {m : Children} {s : String} {c : TreeNode}
    (h : wfT (.branch m) = true) (hc : lookupA m s = some c) : wfT c = true := by
  simp only [wfT, Bool.and_eq_true] at h
  exact wfTL_lookupA h.2 hc

/-! Lemmas about the cache operations. -/

theorem lookupA_eraseA_ne (m : Children) (k k' : String) (h : k' ≠ k) :
    lookupA (eraseA m k) k' = lookupA m k' := by
  induction m with
  | nil => simp [eraseA]
  | cons hd tl ih =>
      obtain ⟨k₀, v₀⟩ := hd
      by_cases h₀ : k₀ = k
      · subst h₀
        simp [eraseA, lookupA, Ne.symm h]
      · simp [eraseA, lookupA, h₀, ih]

theorem insertA_lookupA_self (m : Children) (s : String) (c : TreeNode)
    (h : lookupA m s = some c) : insertA m s c = m := by
  induction m with
  | nil => simp [lookupA] at h
  | cons hd tl ih =>
      obtain ⟨k₀, v₀⟩ := hd
      by_cases h₀ : k₀ = s
      · subst h₀
        simp [lookupA] at h
        simp [insertA, h]
      · simp only [lookupA, if_neg h₀] at h
        simp [insertA, h₀, ih h]

theorem walkOpt_none (segs : List String) : walkOpt none segs = .error () := by
  cases segs <;> rfl

theorem walkOpt_resolveP (t : TreeNode) (segs : List String) :
    walkOpt (some t) segs =
      (match resolveP t segs with
       | some v => .ok v
       | none => .error ()) := by
  induction segs generalizing t with
  | nil => cases t <;> rfl
  | cons s rest ih =>
      cases t with
      | branch m =>
          cases hc : lookupA m s with
          | some c => simpa [walkOpt, resolveP, hc] using ih c
          | none => simp [walkOpt, resolveP, hc, walkOpt_none]
      | leaf s' => rfl
      | null => rfl

theorem setGo_ok_branch {t t' v : TreeNode} {segs : List String}
    (h : setGo t segs v = .ok t') : ∃ m', t' = .branch m' := by
  match segs, t with
  | [], _ => simp [setGo] at h
  | [last], .branch m =>
      simp only [setGo] at h
      injection h with h
      exact ⟨_, h.symm⟩
  | [last], .leaf _ => simp [setGo] at h
  | [last], .null => simp [setGo] at h
  | s :: s₂ :: rest, .branch m =>
      cases hc : lookupA m s with
      | some c =>
          cases hgo : setGo c (s₂ :: rest) v with
          | ok c' =>
              simp only [setGo, hc, hgo] at h
              injection h with h
              exact ⟨_, h.symm⟩
          | error e => simp [setGo, hc, hgo] at h
      | none =>
          cases hgo : setGo (TreeNode.branch []) (s₂ :: rest) v with
          | ok c' =>
              simp only [setGo, hc, hgo] at h
              injection h with h
              exact ⟨_, h.symm⟩
          | error e => simp [setGo, hc, hgo] at h
  | s :: s₂ :: rest, .leaf _ => simp [setGo] at h
  | s :: s₂ :: rest, .null => simp [setGo] at h

theorem setGo_resolveP {t t' v : TreeNode} {segs : List String}
    (h : setGo t segs v = .ok t') : resolveP t' segs = some v := by
  induction segs generalizing t t' with
  | nil => simp [setGo] at h
  | cons s rest ih =>
      cases rest with
      | nil =>
          cases t with
          | branch m =>
              simp only [setGo] at h
              injection h with h
              subst h
              simp [resolveP, lookupA_insertA_self]
          | leaf s' => simp [setGo] at h
          | null => simp [setGo] at h
      | cons s₂ rest₂ =>
          cases t with
          | branch m =>
              cases hc : lookupA m s with
              | some c =>
                  cases hgo : setGo c (s₂ :: rest₂) v with
                  | ok c' =>
                      simp only [setGo, hc, hgo] at h
                      injection h with h
                      subst h
                      simp [resolveP, lookupA_insertA_self, ih hgo]
                  | error e => simp [setGo, hc, hgo] at h
              | none =>
                  cases hgo : setGo (TreeNode.branch []) (s₂ :: rest₂) v with
                  | ok c' =>
                      simp only [setGo, hc, hgo] at h
                      injection h with h
                      subst h
                      simp [resolveP, lookupA_insertA_self, ih hgo]
                  | error e => simp [setGo, hc, hgo] at h
          | leaf s' => simp [setGo] at h
          | null => simp [setGo] at h

theorem cleanPath_empty_branch (segs : List String) :
    cleanPath (.branch []) segs = true := by
  cases segs <;> simp [cleanPath, lookupA]

theorem cleanPath_setGo {t : TreeNode} {segs : List String} (v : TreeNode)
    (hc : cleanPath t segs = true) (hne : segs ≠ []) :
    ∃ t', setGo t segs v = .ok t' := by
  induction segs generalizing t with
  | nil => exact absurd rfl hne
  | cons s rest ih =>
      cases t with
      | branch m =>
          cases rest with
          | nil => exact ⟨_, rfl⟩
          | cons s₂ rest₂ =>
              cases hl : lookupA m s with
              | some c =>
                  simp only [cleanPath, hl] at hc
                  obtain ⟨c', hc'⟩ := ih hc (by simp)
                  exact ⟨.branch (insertA m s c'), by simp [setGo, hl, hc']⟩
              | none =>
                  obtain ⟨c', hc'⟩ :=
                    ih (t := .branch []) (cleanPath_empty_branch _) (by simp)
                  exact ⟨.branch (insertA m s c'), by simp [setGo, hl, hc']⟩
      | leaf s' => simp [cleanPath] at hc
      | null => simp [cleanPath] at hc

theorem cleanPath_removeGo {t : TreeNode} {segs : List String}
    (hc : cleanPath t segs = true) : ∃ t', removeGo t segs = .ok t' := by
  induction segs generalizing t with
  | nil => exact ⟨_, rfl⟩
  | cons s rest ih =>
      cases t with
      | branch m =>
          cases rest with
          | nil => exact ⟨_, rfl⟩
          | cons s₂ rest₂ =>
              cases hl : lookupA m s with
              | some c =>
                  simp only [cleanPath, hl] at hc
                  obtain ⟨c', hc'⟩ := ih hc
                  exact ⟨.branch (insertA m s c'), by simp [removeGo, hl, hc']⟩
              | none => exact ⟨.branch m, by simp [removeGo, hl]⟩
      | leaf s' => simp [cleanPath] at hc
      | null => simp [cleanPath] at hc

theorem setGo_frame {t t' v : TreeNode} {segs : List String}
    (h : setGo t segs v = .ok t') (p : List String)
    (hp1 : liesAlong p segs = false) (hp2 : liesAlong segs p = false) :
    resolveP t' p = resolveP t p := by
  induction segs generalizing t t' p with
  | nil => simp [setGo] at h
  | cons s rest ih =>
      cases p with
      | nil => simp [liesAlong] at hp1
      | cons q qs =>
          cases rest with
          | nil =>
              cases t with
              | branch m =>
                  simp only [setGo] at h
                  injection h with h
                  subst h
                  by_cases hqs : q = s
                  · subst hqs
                    simp [liesAlong] at hp2
                  · simp [resolveP, lookupA_insertA_ne m s q v hqs]
              | leaf s' => simp [setGo] at h
              | null => simp [setGo] at h
          | cons s₂ rest₂ =>
              cases t with
              | branch m =>
                  by_cases hqs : q = s
                  · subst hqs
                    simp [liesAlong] at hp1 hp2
                    cases hl : lookupA m q with
                    | some c =>
                        cases hgo : setGo c (s₂ :: rest₂) v with
                        | ok c' =>
                            simp only [setGo, hl, hgo] at h
                            injection h with h
                            subst h
                            simp [resolveP, lookupA_insertA_self, hl,
                              ih hgo qs hp1 hp2]
                        | error e => simp [setGo, hl, hgo] at h
                    | none =>
                        cases hgo : setGo (TreeNode.branch []) (s₂ :: rest₂) v with
                        | ok c' =>
                            simp only [setGo, hl, hgo] at h
                            injection h with h
                            subst h
                            have hfresh : resolveP c' qs =
                                resolveP (TreeNode.branch []) qs :=
                              ih hgo qs hp1 hp2
                            cases qs with
                            | nil => simp [liesAlong] at hp1
                            | cons q' qs' =>
                                simp [resolveP, lookupA_insertA_self, hl,
                                  hfresh, lookupA]
                        | error e => simp [setGo, hl, hgo] at h
                  · cases hl : lookupA m s with
                    | some c =>
                        cases hgo : setGo c (s₂ :: rest₂) v with
                        | ok c' =>
                            simp only [setGo, hl, hgo] at h
                            injection h with h
                            subst h
                            simp [resolveP, lookupA_insertA_ne m s q _ hqs]
                        | error e => simp [setGo, hl, hgo] at h
                    | none =>
                        cases hgo : setGo (TreeNode.branch []) (s₂ :: rest₂) v with
                        | ok c' =>
                            simp only [setGo, hl, hgo] at h
                            injection h with h
                            subst h
                            simp [resolveP, lookupA_insertA_ne m s q _ hqs]
                        | error e => simp [setGo, hl, hgo] at h
              | leaf s' => simp [setGo] at h
              | null => simp [setGo] at h

theorem setGo_mid {t t' v : TreeNode} {segs : List String}
    (h : setGo t segs v = .ok t') (pre : List String)
    (hp : liesAlong pre segs = true) (hne : pre ≠ segs) :
    ∃ m, resolveP t' pre = some (.branch m) := by
  induction segs generalizing t t' pre with
  | nil => simp [setGo] at h
  | cons s rest ih =>
      cases pre with
      | nil =>
          obtain ⟨m', rfl⟩ := setGo_ok_branch h
          exact ⟨m', rfl⟩
      | cons q qs =>
          simp only [liesAlong, Bool.and_eq_true, decide_eq_true_eq] at hp
          obtain ⟨rfl, hqs⟩ := hp
          cases rest with
          | nil =>
              cases qs with
              | nil => exact absurd rfl hne
              | cons q' qs' => simp [liesAlong] at hqs
          | cons s₂ rest₂ =>
              cases t with
              | branch m =>
                  have hqne : qs ≠ s₂ :: rest₂ := by
                    intro hh
                    exact hne (by rw [hh])
                  cases hl : lookupA m q with
                  | some c =>
                      cases hgo : setGo c (s₂ :: rest₂) v with
                      | ok c' =>
                          simp only [setGo, hl, hgo] at h
                          injection h with h
                          subst h
                          obtain ⟨mm, hmm⟩ := ih hgo qs hqs hqne
                          exact ⟨mm, by simp [resolveP, lookupA_insertA_self, hmm]⟩
                      | error e => simp [setGo, hl, hgo] at h
                  | none =>
                      cases hgo : setGo (TreeNode.branch []) (s₂ :: rest₂) v with
                      | ok c' =>
                          simp only [setGo, hl, hgo] at h
                          injection h with h
                          subst h
                          obtain ⟨mm, hmm⟩ := ih hgo qs hqs hqne
                          exact ⟨mm, by simp [resolveP, lookupA_insertA_self, hmm]⟩
                      | error e => simp [setGo, hl, hgo] at h
              | leaf s' => simp [setGo] at h
              | null => simp [setGo] at h

theorem removeGo_frame {t t' : TreeNode} {segs : List String}
    (h : removeGo t segs = .ok t') (p : List String)
    (hp1 : liesAlong p segs = false) (hp2 : liesAlong segs p = false) :
    resolveP t' p = resolveP t p := by
  induction segs generalizing t t' p with
  | nil =>
      simp only [removeGo] at h
      injection h with h
      rw [h]
  | cons s rest ih =>
      cases p with
      | nil => simp [liesAlong] at hp1
      | cons q qs =>
          cases rest with
          | nil =>
              cases t with
              | branch m =>
                  simp only [removeGo] at h
                  injection h with h
                  subst h
                  by_cases hqs : q = s
                  · subst hqs
                    simp [liesAlong] at hp2
                  · simp [resolveP, lookupA_eraseA_ne m s q hqs]
              | leaf s' =>
                  by_cases hown : jsStringOwnProp s' s
                  · simp [removeGo, hown] at h
                  · simp only [removeGo, hown, Bool.false_eq_true, if_false] at h
                    injection h with h
                    rw [h]
              | null => simp [removeGo] at h
          | cons s₂ rest₂ =>
              cases t with
              | branch m =>
                  by_cases hqs : q = s
                  · subst hqs
                    simp [liesAlong] at hp1 hp2
                    cases hl : lookupA m q with
                    | some c =>
                        cases hgo : removeGo c (s₂ :: rest₂) with
                        | ok c' =>
                            simp only [removeGo, hl, hgo] at h
                            injection h with h
                            subst h
                            simp [resolveP, lookupA_insertA_self, hl,
                              ih hgo qs hp1 hp2]
                        | error e => simp [removeGo, hl, hgo] at h
                    | none =>
                        simp only [removeGo, hl] at h
                        injection h with h
                        subst h
                        rfl
                  · cases hl : lookupA m s with
                    | some c =>
                        cases hgo : removeGo c (s₂ :: rest₂) with
                        | ok c' =>
                            simp only [removeGo, hl, hgo] at h
                            injection h with h
                            subst h
                            simp [resolveP, lookupA_insertA_ne m s q _ hqs]
                        | error e => simp [removeGo, hl, hgo] at h
                    | none =>
                        simp only [removeGo, hl] at h
                        injection h with h
                        subst h
                        rfl
              | leaf s' => simp [removeGo] at h
              | null => simp [removeGo] at h

theorem removeOutcomeGo_rejected_iff (t : TreeNode) (segs : List String) :
    removeOutcomeGo t segs = .rejected ↔ removeGo t segs = .error () := by
  induction segs generalizing t with
  | nil => simp [removeOutcomeGo, removeGo]
  | cons s rest ih =>
      cases rest with
      | nil =>
          cases t with
          | branch m => simp [removeOutcomeGo, removeGo]
          | leaf s' =>
              by_cases hown : jsStringOwnProp s' s <;>
                simp [removeOutcomeGo, removeGo, hown]
          | null => simp [removeOutcomeGo, removeGo]
      | cons s₂ rest₂ =>
          cases t with
          | branch m =>
              cases hl : lookupA m s with
              | some cc =>
                  cases hgo : removeGo cc (s₂ :: rest₂) with
                  | ok c' =>
                      simp [removeOutcomeGo, removeGo, hl, hgo, ih, hgo]
                  | error e =>
                      simp [removeOutcomeGo, removeGo, hl, hgo, ih, hgo]
              | none => simp [removeOutcomeGo, removeGo, hl]
          | leaf s' => simp [removeOutcomeGo, removeGo]
          | null => simp [removeOutcomeGo, removeGo]

theorem missingInterior_removeGo {t : TreeNode} {segs : List String}
    (h : missingInterior t segs = true) : removeGo t segs = .ok t := by
  induction segs generalizing t with
  | nil => simp [missingInterior] at h
  | cons s rest ih =>
      cases rest with
      | nil => simp [missingInterior] at h
      | cons s₂ rest₂ =>
          cases t with
          | branch m =>
              cases hl : lookupA m s with
              | some c =>
                  simp only [missingInterior, hl] at h
                  simp [removeGo, hl, ih h, insertA_lookupA_self m s c hl]
              | none => simp [removeGo, hl]
          | leaf s' => simp [missingInterior] at h
          | null => simp [missingInterior] at h

theorem removeGo_idem {t t' : TreeNode} {segs : List String}
    (hwf : wfT t = true) (h : removeGo t segs = .ok t') :
    removeGo t' segs = .ok t' := by
  induction segs generalizing t t' with
  | nil =>
      simp only [removeGo] at h
      injection h with h
      subst h
      rfl
  | cons s rest ih =>
      cases rest with
      | nil =>
          cases t with
          | branch m =>
              simp only [removeGo] at h
              injection h with h
              subst h
              simp [removeGo, eraseA_eraseA m s (wfT_branch_nodup hwf)]
          | leaf s' =>
              by_cases hown : jsStringOwnProp s' s
              · simp [removeGo, hown] at h
              · simp only [removeGo, hown, Bool.false_eq_true, if_false] at h
                injection h with h
                subst h
                simp [removeGo, hown]
          | null => simp [removeGo] at h
      | cons s₂ rest₂ =>
          cases t with
          | branch m =>
              cases hl : lookupA m s with
              | some c =>
                  cases hgo : removeGo c (s₂ :: rest₂) with
                  | ok c₁ =>
                      simp only [removeGo, hl, hgo] at h
                      injection h with h
                      subst h
                      have hrec := ih (wfT_child hwf hl) hgo
                      simp [removeGo, lookupA_insertA_self, hrec,
                        insertA_insertA]
                  | error e => simp [removeGo, hl, hgo] at h
              | none =>
                  simp only [removeGo, hl] at h
                  injection h with h
                  subst h
                  simp [removeGo, hl]
          | leaf s' => simp [removeGo] at h
          | null => simp [removeGo] at h

/-! Lemmas about readBranch: the accumulator-mutation recursion computes
the pure materialization, entry by entry. -/

theorem hasKeyC_append (a b : Children) (k : String) :
    hasKeyC (a ++ b) k = (hasKeyC a k || hasKeyC b k) := by
  induction a with
  | nil => simp [hasKeyC]
  | cons hd tl ih =>
      obtain ⟨k₀, v₀⟩ := hd
      by_cases h : k₀ = k <;> simp [hasKeyC, h, ih]

theorem insertA_append (acc : Children) (k : String) (v : TreeNode)
    (h : hasKeyC acc k = false) : insertA acc k v = acc ++ [(k, v)] := by
  induction acc with
  | nil => simp [insertA]
  | cons hd tl ih =>
      obtain ⟨k₀, v₀⟩ := hd
      simp only [hasKeyC, Bool.or_eq_false_iff, decide_eq_false_iff_not] at h
      simp [insertA, h.1, ih h.2]

theorem insertA_middle (front tail : Children) (k : String) (x v : TreeNode)
    (h : hasKeyC front k = false) :
    insertA (front ++ (k, x) :: tail) k v = front ++ (k, v) :: tail := by
  induction front with
  | nil => simp [insertA]
  | cons hd tl ih =>
      obtain ⟨k₀, v₀⟩ := hd
      simp only [hasKeyC, Bool.or_eq_false_iff, decide_eq_false_iff_not] at h
      simp [insertA, h.1, ih h.2]

theorem presetNulls_append (entries : List (String × FSNode)) :
    ∀ acc : Children, nodupKeysF entries = true →
      (∀ k, hasKeyF entries k = true → hasKeyC acc k = false) →
      presetNulls entries acc = acc ++ nullList entries := by
  induction entries with
  | nil => intro acc _ _; simp [presetNulls, nullList]
  | cons hd rest ih =>
      intro acc hnd hdisj
      obtain ⟨n, c⟩ := hd
      simp only [nodupKeysF, Bool.and_eq_true, Bool.not_eq_true'] at hnd
      have hacc : hasKeyC acc n = false := hdisj n (by simp [hasKeyF])
      have step : insertA acc n .null = acc ++ [(n, .null)] :=
        insertA_append acc n .null hacc
      have hdisj' : ∀ k, hasKeyF rest k = true →
          hasKeyC (acc ++ [(n, .null)]) k = false := by
        intro k hk
        have hkn : n ≠ k := by
          intro hh
          rw [hh] at hnd
          rw [hnd.1] at hk
          cases hk
        simp [hasKeyC_append, hasKeyC, hkn,
          hdisj k (by simp [hasKeyF, hk])]
      calc presetNulls ((n, c) :: rest) acc
      _ = presetNulls rest (acc ++ [(n, .null)]) := by
        simp [presetNulls, step]
      _ = (acc ++ [(n, .null)]) ++ nullList rest := ih _ hnd.2 hdisj'
      _ = acc ++ nullList ((n, c) :: rest) := by simp [nullList]

theorem insKids_nullList (entries : List (String × FSNode)) :
    ∀ front : Children, nodupKeysF entries = true →
      (∀ k, hasKeyF entries k = true → hasKeyC front k = false) →
      insKids entries (front ++ nullList entries) = front ++ matKids entries := by
  induction entries with
  | nil => intro front _ _; simp [insKids, nullList, matKids]
  | cons hd rest ih =>
      intro front hnd hdisj
      obtain ⟨n, c⟩ := hd
      simp only [nodupKeysF, Bool.and_eq_true, Bool.not_eq_true'] at hnd
      have hfront : hasKeyC front n = false := hdisj n (by simp [hasKeyF])
      have hdisj' : ∀ k, hasKeyF rest k = true →
          hasKeyC (front ++ [(n, mat c)]) k = false := by
        intro k hk
        have hkn : n ≠ k := by
          intro hh
          rw [hh] at hnd
          rw [hnd.1] at hk
          cases hk
        simp [hasKeyC_append, hasKeyC, hkn,
          hdisj k (by simp [hasKeyF, hk])]
      calc insKids ((n, c) :: rest) (front ++ nullList ((n, c) :: rest))
      _ = insKids rest (insertA (front ++ (n, .null) :: nullList rest) n (mat c)) := by
        simp [insKids, nullList]
      _ = insKids rest ((front ++ [(n, mat c)]) ++ nullList rest) := by
        rw [insertA_middle front (nullList rest) n .null (mat c) hfront]
        simp
      _ = (front ++ [(n, mat c)]) ++ matKids rest := ih _ hnd.2 hdisj'
      _ = front ++ matKids ((n, c) :: rest) := by simp [matKids]

theorem insKids_preset (entries : List (String × FSNode))
    (hnd : nodupKeysF entries = true) :
    insKids entries (presetNulls entries []) = matKids entries := by
  have hp : presetNulls entries [] = nullList entries := by
    simpa using presetNulls_append entries [] hnd (by simp [hasKeyC])
  rw [hp]
  simpa using insKids_nullList entries [] hnd (by simp [hasKeyC])

mutual

theorem readBranchM_mat (node : FSNode) (name : String) (acc : Children)
    (h : wfF node = true) :
    readBranchM node name acc = insertA acc name (mat node) := by
  cases node with
  | file content => rfl
  | dir entries =>
      simp only [wfF, Bool.and_eq_true] at h
      rw [readBranchM, readBranchKids_insKids entries (presetNulls entries []) h.2,
        insKids_preset entries h.1]
      rfl

theorem readBranchKids_insKids (entries : List (String × FSNode)) (acc : Children)
    (h : wfFL entries = true) :
    readBranchKids entries acc = insKids entries acc := by
  cases entries with
  | nil => rfl
  | cons hd rest =>
      obtain ⟨n, c⟩ := hd
      simp only [wfFL, Bool.and_eq_true] at h
      rw [readBranchKids, readBranchM_mat c n acc h.1,
        readBranchKids_insKids rest _ h.2]
      rfl

end

theorem splitC_ne_nil (sep : Char) (l cur : List Char) : splitC sep l cur ≠ [] := by
  induction l generalizing cur with
  | nil => simp [splitC]
  | cons ch rest ih =>
      by_cases h : ch = sep <;> simp [splitC, h, ih]

theorem jsSplit_ne_nil (key : String) (sep : Char) : jsSplit key sep ≠ [] :=
  splitC_ne_nil sep key.data []

theorem length_ne_zero {s : String} (h : s ≠ "") : s.length ≠ 0 := by
  cases s with
  | mk l =>
      cases l with
      | nil => exact absurd rfl h
      | cons ch cs => simp [String.length]

theorem branch_single_ne (b : String) (t : TreeNode) :
    TreeNode.branch [(b, t)] ≠ t := by
  intro h
  cases t with
  | leaf s => exact TreeNode.noConfusion h
  | null => exact TreeNode.noConfusion h
  | branch l =>
      injection h with h
      have hs := congrArg sizeOf h
      simp at hs
      omega

example : jsSplit "a/b" '/' = ["a", "b"] := rfl
example : jsSplit "" '/' = [""] := rfl
example : jsSplit "/" '/' = ["", ""] := rfl
example : jsSplit "a//b" '/' = ["a", "", "b"] := rfl

example :
    setM defaultCfg (.branch []) "a/b" (.leaf "x") .undef =
      (.ok (.branch [("a", .branch [("b", .leaf "x")])]), []) := rfl

example :
    getM defaultCfg (.branch [("a", .branch [("b", .leaf "x")])]) "a/b" =
      .ok (.leaf "x") := rfl

example :
    setM defaultCfg (.branch [("a", .leaf "x")]) "a/b" (.leaf "v") .undef =
      (.error (), []) := rfl

example : getM defaultCfg (.leaf "hi") "0" = .ok (.leaf "h") := rfl

example :
    removeM defaultCfg (.branch [("a", .branch [("b", .leaf "x")])]) "a/b" =
      .ok (.branch [("a", .branch [])]) := rfl

example :
    readBranchM
        (.dir [("a", .file "hello"), ("b", .dir [("c", .file "world")])]) "base" [] =
      [("base", .branch [("a", .leaf "hello"), ("b", .branch [("c", .leaf "world")])])] := rfl

example : wfF (.dir [("a", .file "hello"), ("b", .dir [("c", .file "world")])]) = true := rfl

example : loadDatabaseM (.dir [("a", .file "hello")]) = .branch [("a", .leaf "hello")] := rfl

/-! The claims. -/

/-- C1, evaluation at the failing input: under the default configuration,
set with the explicit truthy TTL 5 schedules no timer at all (the source
guards the setTimeout with the negation of the effective TTL), and the
entry is still retrievable afterwards, there being no timer to fire. The
claim says exactly one expiry timer is scheduled and that get fails after
the TTL has elapsed. -/
theorem c1_ttl_timer_eval :
    setM defaultCfg (.branch []) "a" (.leaf "v") (.num 5) =
      (.ok (.branch [("a", .leaf "v")]), []) ∧
    getM defaultCfg (.branch [("a", .leaf "v")]) "a" = .ok (.leaf "v") :=
  ⟨rfl, rfl⟩

/-- C2, evaluation at the failing input: under the configuration TreeDB
itself uses (default ttl false), set with the explicit pinning TTL false
schedules a timer with delay 0 whose firing removes the key, after which
get fails; the claim says no timer is scheduled for an explicit false
TTL under every configuration. -/
theorem c2_pinned_timer_eval :
    setM treeDbCfg (.branch []) "a" (.leaf "v") .fls =
      (.ok (.branch [("a", .leaf "v")]), [(0, "a")]) ∧
    removeM treeDbCfg (.branch [("a", .leaf "v")]) "a" = .ok (.branch []) ∧
    getM treeDbCfg (.branch []) "a" = .error () :=
  ⟨rfl, rfl, rfl⟩

/-- C3, counterexample: on a cache whose key a holds a leaf, set of the
key a/b rejects (strict-mode TypeError when assigning a property on a
string primitive), and remove of the key a/b/c rejects as well (the in
operator applied to a string primitive throws), so set and remove are not
failure-free over every reachable state. -/
theorem c3_counterexample :
    (setM defaultCfg (.branch [("a", .leaf "x")]) "a/b" (.leaf "v") .undef).1 =
      .error () ∧
    removeM defaultCfg (.branch [("a", .leaf "x")]) "a/b/c" = .error () :=
  ⟨rfl, rfl⟩

/-- C3, amended: set and remove never reject provided no traversed
segment of the key resolves to a leaf or null (every existing node met
along the walk is a branch): under that condition set resolves, the
promise of remove is never rejected, and the state effect of remove is
total. Even then remove does not always resolve: on the successful delete
path its executor ends without a resolve call and the promise stays
pending forever; its only actual resolution is the missing-interior early
return. The rejection of get remains the only failure signal. -/
theorem c3_amended (cfg : CacheConfig) (t v : TreeNode) (key : String) (ttl : Ttl)
    (hclean : cleanPath t (jsSplit key cfg.separator) = true) :
    (∃ t₁, (setM cfg t key v ttl).1 = .ok t₁) ∧
    removeOutcome cfg t key ≠ .rejected ∧
    (∃ t₂, removeM cfg t key = .ok t₂) := by
  refine ⟨?_, ?_, cleanPath_removeGo hclean⟩
  · by_cases hk : key.length = 0
    · exact ⟨v, by simp [setM, hk]⟩
    · obtain ⟨t₁, h₁⟩ :=
        cleanPath_setGo v hclean (jsSplit_ne_nil key cfg.separator)
      exact ⟨t₁, by simp [setM, hk, h₁]⟩
  · intro hbad
    obtain ⟨t₂, h₂⟩ := cleanPath_removeGo hclean
    have h₂' : removeGo t (jsSplit key cfg.separator) = .ok t₂ := h₂
    rw [removeOutcome] at hbad
    rw [(removeOutcomeGo_rejected_iff t (jsSplit key cfg.separator)).mp hbad] at h₂'
    exact Except.noConfusion h₂'

/-- C3, witness at a concrete clean state. -/
theorem c3_amended_witness :
    (∃ t₁, (setM defaultCfg (.branch [("a", .branch [])]) "a/b"
        (.leaf "v") .undef).1 = .ok t₁) ∧
    removeOutcome defaultCfg (.branch [("a", .branch [])]) "a/b" ≠ .rejected ∧
    (∃ t₂, removeM defaultCfg (.branch [("a", .branch [])]) "a/b" = .ok t₂) :=
  c3_amended defaultCfg (.branch [("a", .branch [])]) (.leaf "v") "a/b" .undef rfl

/-- C4: for a non-empty key, when set completes successfully, an
immediately following get on the same key returns exactly the value that
was set. -/
theorem c4_set_then_get (cfg : CacheConfig) (t v t' : TreeNode) (key : String)
    (ttl : Ttl) (tms : List (Nat × String)) (hk : key ≠ "")
    (hset : setM cfg t key v ttl = (.ok t', tms)) :
    getM cfg t' key = .ok v := by
  have hk0 : ¬ key.length = 0 := length_ne_zero hk
  cases hgo : setGo t (jsSplit key cfg.separator) v with
  | ok t'' =>
      simp only [setM, hk0, if_false, hgo, Prod.mk.injEq, Except.ok.injEq] at hset
      obtain ⟨rfl, -⟩ := hset
      obtain ⟨m', rfl⟩ := setGo_ok_branch hgo
      rw [getM]
      show walkOpt (some (.branch m')) (jsSplit key cfg.separator) = .ok v
      rw [walkOpt_resolveP, setGo_resolveP hgo]
  | error e =>
      simp [setM, hk0, hgo] at hset

/-- C4, witness at a concrete input. -/
theorem c4_set_then_get_witness :
    getM defaultCfg (.branch [("a", .branch [("b", .leaf "x")])]) "a/b" =
      .ok (.leaf "x") :=
  c4_set_then_get defaultCfg (.branch []) (.leaf "x")
    (.branch [("a", .branch [("b", .leaf "x")])]) "a/b" .undef []
    (by decide) rfl

/-- C5, counterexample: the key 0 is set under the old tree, then the
whole tree is replaced by the leaf hi; the key 0 is absent from that leaf
(a leaf has no children), yet get of 0 succeeds afterwards, returning the
one-character string h, because the Object.assign snapshot in get spreads
the characters of a string root into index properties. -/
theorem c5_counterexample :
    (setM defaultCfg (.branch []) "0" (.leaf "w") .undef).1 =
      .ok (.branch [("0", .leaf "w")]) ∧
    (setM defaultCfg (.branch [("0", .leaf "w")]) "" (.leaf "hi") .undef).1 =
      .ok (.leaf "hi") ∧
    resolveP (.leaf "hi") (jsSplit "0" '/') = none ∧
    getM defaultCfg (.leaf "hi") "0" = .ok (.leaf "h") :=
  ⟨rfl, rfl, rfl, rfl⟩

/-- C5, amended: set with the empty key synchronously replaces the whole
tree with the given value from every prior state, and when the new value
is a branch, every key that does not resolve inside it fails get with the
miss rejection. (When the new value is a leaf, the snapshot taken by get
spreads its characters, so index keys below its length still succeed.) -/
theorem c5_tree_swap (cfg : CacheConfig) (s V : TreeNode) (key : String)
    (ttl : Ttl) (m : Children) (hV : V = .branch m)
    (habs : resolveP V (jsSplit key cfg.separator) = none) :
    (setM cfg s "" V ttl).1 = .ok V ∧
    getM cfg V key = .error () := by
  subst hV
  refine ⟨by simp [setM], ?_⟩
  rw [getM]
  show walkOpt (some (.branch m)) (jsSplit key cfg.separator) = .error ()
  rw [walkOpt_resolveP, habs]

/-- C5, witness at a concrete input. -/
theorem c5_tree_swap_witness :
    (setM defaultCfg (.branch [("old", .leaf "o")]) "" (.branch [("x", .leaf "1")])
        .undef).1 = .ok (.branch [("x", .leaf "1")]) ∧
    getM defaultCfg (.branch [("x", .leaf "1")]) "y" = .error () :=
  c5_tree_swap defaultCfg (.branch [("old", .leaf "o")])
    (.branch [("x", .leaf "1")]) "y" .undef [("x", .leaf "1")] rfl rfl

/-- C6: materializing, through the recursive branch read into an empty
accumulator, a directory holding one file a with content hello and one
subdirectory b holding one file c with content world, stores under the
base name of the root directory exactly the branch mapping a to the leaf
hello and b to the branch mapping c to the leaf world. -/
theorem c6_round_trip (name : String) :
    readBranchM (.dir [("a", .file "hello"), ("b", .dir [("c", .file "world")])])
        name [] =
      [(name, .branch [("a", .leaf "hello"),
        ("b", .branch [("c", .leaf "world")])])] := rfl

/-- C7: when set of a non-empty key completes successfully, the written
value is reachable at the full segment path, every proper initial segment
of the path resolves to a branch (missing intermediates were created),
and every path that neither extends nor is extended by the written path
resolves to exactly what it resolved to before, so sibling keys of every
branch along the way keep their previous values. -/
theorem c7_set_intermediates_and_frame (cfg : CacheConfig) (t v t' : TreeNode)
    (key : String) (ttl : Ttl) (tms : List (Nat × String)) (hk : key ≠ "")
    (hset : setM cfg t key v ttl = (.ok t', tms)) :
    resolveP t' (jsSplit key cfg.separator) = some v ∧
    (∀ pre, liesAlong pre (jsSplit key cfg.separator) = true →
      pre ≠ jsSplit key cfg.separator →
      ∃ m, resolveP t' pre = some (.branch m)) ∧
    (∀ p, liesAlong p (jsSplit key cfg.separator) = false →
      liesAlong (jsSplit key cfg.separator) p = false →
      resolveP t' p = resolveP t p) := by
  have hk0 : ¬ key.length = 0 := length_ne_zero hk
  cases hgo : setGo t (jsSplit key cfg.separator) v with
  | ok t'' =>
      simp only [setM, hk0, if_false, hgo, Prod.mk.injEq, Except.ok.injEq] at hset
      obtain ⟨rfl, -⟩ := hset
      exact ⟨setGo_resolveP hgo,
        fun pre hp hne => setGo_mid hgo pre hp hne,
        fun p hp1 hp2 => setGo_frame hgo p hp1 hp2⟩
  | error e =>
      simp [setM, hk0, hgo] at hset

/-- C7, witness: set of a/b on a tree holding the sibling z. -/
theorem c7_witness :
    resolveP (.branch [("z", .leaf "w"), ("a", .branch [("b", .leaf "x")])])
        ["a", "b"] = some (.leaf "x") ∧
    (∃ m, resolveP (.branch [("z", .leaf "w"), ("a", .branch [("b", .leaf "x")])])
        ["a"] = some (.branch m)) ∧
    resolveP (.branch [("z", .leaf "w"), ("a", .branch [("b", .leaf "x")])])
        ["z"] = resolveP (.branch [("z", .leaf "w")]) ["z"] := by
  have h := c7_set_intermediates_and_frame defaultCfg (.branch [("z", .leaf "w")])
    (.leaf "x") (.branch [("z", .leaf "w"), ("a", .branch [("b", .leaf "x")])])
    "a/b" .undef [] (by decide) rfl
  exact ⟨h.1, h.2.1 ["a"] rfl (by decide), h.2.2 ["z"] rfl rfl⟩

/-- C8: remove only ever deletes the terminal entry from its parent
branch, in the sense that every path that neither extends nor is extended
by the removed path resolves to exactly what it resolved to before; when
an interior segment is missing, remove is a no-op that resolves without
an error; and on a well-formed cache tree the state reached by removing
the same key twice equals the state after removing it once. -/
theorem c8_remove_noop_frame_idem (cfg : CacheConfig) (t : TreeNode) (key : String) :
    (wfT t = true →
      removeState cfg (removeState cfg t key) key = removeState cfg t key) ∧
    (missingInterior t (jsSplit key cfg.separator) = true →
      removeM cfg t key = .ok t) ∧
    (∀ t' p, removeM cfg t key = .ok t' →
      liesAlong p (jsSplit key cfg.separator) = false →
      liesAlong (jsSplit key cfg.separator) p = false →
      resolveP t' p = resolveP t p) := by
  refine ⟨?_, ?_, ?_⟩
  · intro hwf
    cases h : removeM cfg t key with
    | ok t' =>
        have h' : removeGo t (jsSplit key cfg.separator) = .ok t' := h
        simp [removeState, removeM, h', removeGo_idem hwf h']
    | error e =>
        have h' : removeGo t (jsSplit key cfg.separator) = .error e := h
        simp [removeState, removeM, h']
  · intro hm
    exact missingInterior_removeGo hm
  · intro t' p h hp1 hp2
    exact removeGo_frame h p hp1 hp2

/-- C8, witness: removing a/b from a two-level tree, a no-op removal on an
empty tree, and the frame fact for the sibling path z. -/
theorem c8_witness :
    removeState defaultCfg
        (removeState defaultCfg (.branch [("a", .branch [("b", .leaf "x")])]) "a/b")
        "a/b" =
      removeState defaultCfg (.branch [("a", .branch [("b", .leaf "x")])]) "a/b" ∧
    removeM defaultCfg (.branch []) "q/r" = .ok (.branch []) ∧
    resolveP (.branch [("a", .branch [])]) ["z"] =
      resolveP (.branch [("a", .branch [("b", .leaf "x")])]) ["z"] := by
  have h1 := c8_remove_noop_frame_idem defaultCfg
    (.branch [("a", .branch [("b", .leaf "x")])]) "a/b"
  have h2 := c8_remove_noop_frame_idem defaultCfg (.branch []) "q/r"
  exact ⟨h1.1 rfl, h2.2.1 rfl, h1.2.2 (.branch [("a", .branch [])]) ["z"] rfl rfl rfl⟩

/-- C9: whenever lstat of the resolved path fails, readPath resolves
successfully to undefined if the error code is ENOENT and rejects with
exactly that error otherwise. -/
theorem c9_readPath_stat_failure (ops : FSOps) (root segs : List String) (e : IOErr)
    (hstat : ops.lstat (root ++ segs) = .error e) :
    readPathM ops root segs =
      (if e.code = "ENOENT" then .resolved none else .rejected e) := by
  simp [readPathM, hstat]

/-- C9, witness: an ENOENT collaborator and an EACCES collaborator. -/
theorem c9_readPath_stat_failure_witness :
    readPathM enoentOps [] ["a"] = .resolved none ∧
    readPathM eaccesOps [] ["a"] = .rejected ⟨"EACCES"⟩ := by
  have h1 := c9_readPath_stat_failure enoentOps [] ["a"] ⟨"ENOENT"⟩ rfl
  have h2 := c9_readPath_stat_failure eaccesOps [] ["a"] ⟨"EACCES"⟩ rfl
  simp only [if_pos rfl] at h1
  rw [if_neg (by decide)] at h2
  exact ⟨h1, h2⟩

/-- C10, counterexample: the key a/b is absent from the cache (get
rejects, because a holds the leaf xy) and resolves to an existing
directory on disk, and getBranch duly returns the wrapped branch keyed by
the base name b; but the discarded cache set rejects on the leaf at a, so
nothing is cached: the cache state afterwards is the unchanged old cache
and get of a/b still misses, falsifying the unconditional caches-under-P
part of the claim. -/
theorem c10_counterexample :
    getM treeDbCfg (.branch [("a", .leaf "xy")]) (trimSlash "a/b") = .error () ∧
    fsResolve (.dir [("a", .dir [("b", .dir [("c", .file "z")])])])
        (pathSegs (trimSlash "a/b")) = some (.dir [("c", .file "z")]) ∧
    (getBranchM treeDbCfg ["db", "storage"]
        (.dir [("a", .dir [("b", .dir [("c", .file "z")])])])
        (.branch [("a", .leaf "xy")]) "a/b").1 =
      .branch [("b", .branch [("c", .leaf "z")])] ∧
    (getBranchM treeDbCfg ["db", "storage"]
        (.dir [("a", .dir [("b", .dir [("c", .file "z")])])])
        (.branch [("a", .leaf "xy")]) "a/b").2.1 =
      .branch [("a", .leaf "xy")] ∧
    getM treeDbCfg
        (getBranchM treeDbCfg ["db", "storage"]
          (.dir [("a", .dir [("b", .dir [("c", .file "z")])])])
          (.branch [("a", .leaf "xy")]) "a/b").2.1 (trimSlash "a/b") =
      .error () :=
  ⟨rfl, rfl, rfl, rfl, rfl⟩

/-- C10, amended: on a cache miss for a path that resolves to an existing
directory, getBranch returns a branch holding exactly one top-level key,
the base name of the joined path, mapped to the materialized subtree;
that wrapper is never equal to the materialized subtree itself; the
bootstrap by contrast seeds the cache root with the unwrapped storage
subtree; and the wrapper is cached under the path exactly as far as the
embedded, discarded cache set goes: when that set succeeds on a
non-empty trimmed path the wrapper is exactly what a subsequent cache get
of the path returns, when it rejects (a leaf blocks the cache walk) the
rejection is discarded and the cache is left unchanged, and on the empty
trimmed path the whole cache root is replaced by the wrapper. -/
theorem c10_getBranch_wraps (cfg : CacheConfig) (rootSegs : List String)
    (fsRoot : FSNode) (cache : TreeNode) (nodePath : String)
    (entries : List (String × FSNode))
    (hmiss : getM cfg cache (trimSlash nodePath) = .error ())
    (hfs : fsResolve fsRoot (pathSegs (trimSlash nodePath)) = some (.dir entries))
    (hwf : wfF (.dir entries) = true) :
    (getBranchM cfg rootSegs fsRoot cache nodePath).1 =
      .branch [((rootSegs ++ pathSegs (trimSlash nodePath)).getLastD "",
        mat (.dir entries))] ∧
    (getBranchM cfg rootSegs fsRoot cache nodePath).1 ≠ mat (.dir entries) ∧
    (∀ root', wfF root' = true → loadDatabaseM root' = mat root') ∧
    (∀ c', trimSlash nodePath ≠ "" →
      setGo cache (jsSplit (trimSlash nodePath) cfg.separator)
          (.branch [((rootSegs ++ pathSegs (trimSlash nodePath)).getLastD "",
            mat (.dir entries))]) = .ok c' →
      (getBranchM cfg rootSegs fsRoot cache nodePath).2.1 = c' ∧
      getM cfg c' (trimSlash nodePath) =
        .ok (.branch [((rootSegs ++ pathSegs (trimSlash nodePath)).getLastD "",
          mat (.dir entries))])) ∧
    (trimSlash nodePath ≠ "" →
      setGo cache (jsSplit (trimSlash nodePath) cfg.separator)
          (.branch [((rootSegs ++ pathSegs (trimSlash nodePath)).getLastD "",
            mat (.dir entries))]) = .error () →
      (getBranchM cfg rootSegs fsRoot cache nodePath).2.1 = cache) ∧
    (trimSlash nodePath = "" →
      (getBranchM cfg rootSegs fsRoot cache nodePath).2.1 =
        .branch [((rootSegs ++ pathSegs (trimSlash nodePath)).getLastD "",
          mat (.dir entries))]) := by
  have htree :
      readBranchM (.dir entries)
          ((rootSegs ++ pathSegs (trimSlash nodePath)).getLastD "") [] =
        [((rootSegs ++ pathSegs (trimSlash nodePath)).getLastD "",
          mat (.dir entries))] := by
    rw [readBranchM_mat _ _ _ hwf]
    rfl
  have hval : (getBranchM cfg rootSegs fsRoot cache nodePath).1 =
      .branch [((rootSegs ++ pathSegs (trimSlash nodePath)).getLastD "",
        mat (.dir entries))] := by
    simp only [getBranchM, hmiss, hfs, htree]
  refine ⟨hval, ?_, ?_, ?_, ?_, ?_⟩
  · rw [hval]
    exact branch_single_ne _ _
  · intro root' hwf'
    rw [loadDatabaseM, readBranchM_mat _ _ _ hwf']
    simp [insertA, lookupA]
  · intro c' hne hset
    have hk0 : ¬ (trimSlash nodePath).length = 0 := length_ne_zero hne
    have hstate : (getBranchM cfg rootSegs fsRoot cache nodePath).2.1 = c' := by
      simp only [getBranchM, hmiss, hfs, htree, setM, setStateOr]
      rw [if_neg hk0, hset]
    refine ⟨hstate, ?_⟩
    obtain ⟨m', rfl⟩ := setGo_ok_branch hset
    rw [getM]
    show walkOpt (some (.branch m')) _ = _
    rw [walkOpt_resolveP, setGo_resolveP hset]
  · intro hne hsetErr
    have hk0 : ¬ (trimSlash nodePath).length = 0 := length_ne_zero hne
    simp only [getBranchM, hmiss, hfs, htree, setM, setStateOr]
    rw [if_neg hk0, hsetErr]
  · intro h0
    simp only [getBranchM, hmiss, hfs, htree, setM, setStateOr]
    rw [h0]
    rfl

/-- C10, witness: a miss on the path sub over a file system holding the
directory sub with one file a. -/
theorem c10_getBranch_wraps_witness :
    (getBranchM treeDbCfg ["db", "storage"]
        (.dir [("sub", .dir [("a", .file "hello")])]) (.branch []) "sub").1 =
      .branch [("sub", .branch [("a", .leaf "hello")])] ∧
    loadDatabaseM (.dir [("sub", .dir [("a", .file "hello")])]) =
      .branch [("sub", .branch [("a", .leaf "hello")])] ∧
    (getBranchM treeDbCfg ["db", "storage"]
        (.dir [("sub", .dir [("a", .file "hello")])]) (.branch []) "sub").2.1 =
      .branch [("sub", .branch [("sub", .branch [("a", .leaf "hello")])])] ∧
    getM treeDbCfg
        (.branch [("sub", .branch [("sub", .branch [("a", .leaf "hello")])])])
        "sub" =
      .ok (.branch [("sub", .branch [("a", .leaf "hello")])]) := by
  have h := c10_getBranch_wraps treeDbCfg ["db", "storage"]
    (.dir [("sub", .dir [("a", .file "hello")])]) (.branch []) "sub"
    [("a", .file "hello")] rfl rfl rfl
  have h4 := h.2.2.2.1
    (.branch [("sub", .branch [("sub", .branch [("a", .leaf "hello")])])])
    (by decide) rfl
  exact ⟨h.1, h.2.2.1 (.dir [("sub", .dir [("a", .file "hello")])]) rfl,
    h4.1, h4.2⟩

end NodeFsTreeDb
